import Mathlib

/-!
Verification of the document-scanner detection and rectification pipeline
(src/App.tsx, src/types.ts).

The pipeline is shallowly embedded: JavaScript numbers are idealised as
rationals (all coordinates that actually flow through the pipeline come from
an OpenCV Mat of 32-bit integers), Euclidean distances live in the reals,
and the stateful React pieces (the detection loop, the extract handler) are
embedded as explicit state-passing functions or step relations.

External OpenCV entry points that the pipeline calls (cv.contourArea,
cv.isContourConvex, cv.approxPolyDP, cv.getPerspectiveTransform) are not part
of this repository; where a claim depends on them they are either kept
abstract (a structure of contour operations over which theorems quantify) or
modelled from their documented mathematics (shoelace area, cross-product
convexity, the unique 4-point homography).
-/

namespace DocScanner

/-- Point as in src/types.ts: pixel coordinates in the frame.  JS numbers are
idealised as rationals; every coordinate the pipeline actually handles comes
from the Int32Array backing the approximated contour. -/
@[ext] structure Point where
  x : ℚ
  y : ℚ
deriving DecidableEq, Repr

/-- Default point used when reading a list out of bounds (the JS code never
does so on the 4-point lists it handles). -/
def pz : Point := ⟨0, 0⟩

/-!
## Corner Orderer (src/App.tsx lines 5-10)

JS `Array.prototype.sort` with comparator `(a, b) => a.y - b.y` is a stable
ascending sort by the key `y`.  We embed it as a stable insertion sort by a
rational key: each element is inserted after every already-placed element
whose key is less than or equal to its own, which is exactly the stable-sort
contract of the JS runtime.
-/

/-- Stable insertion of a point into an already key-sorted list: p goes after
every element whose key is ≤ its own (so equal keys keep their original
relative order, as JS stable sort guarantees). -/
def insertK (f : Point → ℚ) (p : Point) : List Point → List Point
  | [] => [p]
  | q :: qs => if f q ≤ f p then q :: insertK f p qs else p :: q :: qs

/-- Model of `array.sort((a, b) => f(a) - f(b))`: a stable ascending sort by
the key f, built by left-to-right stable insertion. -/
def jsSort (f : Point → ℚ) (l : List Point) : List Point :=
  l.foldl (fun acc p => insertK f p acc) []

/-- orderPoints from src/App.tsx lines 5-10: sort the 4 points by y
ascending; the first two are the top pair and the last two the bottom pair;
sort each pair by x ascending; return [top-left, top-right, bottom-right,
bottom-left]. -/
def orderPoints (points : List Point) : List Point :=
  let rect := jsSort (fun p => p.y) points
  let top := jsSort (fun p => p.x) [rect.getD 0 pz, rect.getD 1 pz]
  let bottom := jsSort (fun p => p.x) [rect.getD 2 pz, rect.getD 3 pz]
  [top.getD 0 pz, top.getD 1 pz, bottom.getD 1 pz, bottom.getD 0 pz]

theorem insertK_perm (f : Point → ℚ) (p : Point) (l : List Point) :
    List.Perm (insertK f p l) (p :: l) := by
  induction l with
  | nil => simp [insertK]
  | cons q qs ih =>
    simp only [insertK]
    split
    · exact (ih.cons q).trans (List.Perm.swap p q qs)
    · rfl

/-- Sortedness by a rational key. -/
def sortedK (f : Point → ℚ) (l : List Point) : Prop :=
  l.Pairwise (fun a b => f a ≤ f b)

theorem insertK_sorted (f : Point → ℚ) (p : Point) (l : List Point)
    (h : sortedK f l) : sortedK f (insertK f p l) := by
  induction l with
  | nil => simp [insertK, sortedK]
  | cons q qs ih =>
    simp only [sortedK, List.pairwise_cons] at h
    simp only [insertK]
    split
    · rename_i hle
      have h2 := ih h.2
      simp only [sortedK, List.pairwise_cons] at h2 ⊢
      refine ⟨?_, h2⟩
      intro a ha
      have hm := List.mem_cons.mp ((insertK_perm f p qs).mem_iff.mp ha)
      rcases hm with rfl | hmem
      · exact hle
      · exact h.1 a hmem
    · rename_i hnot
      push_neg at hnot
      simp only [sortedK, List.pairwise_cons] at h ⊢
      exact ⟨fun a ha => by
        rcases List.mem_cons.mp ha with rfl | hmem
        · exact le_of_lt hnot
        · exact le_trans (le_of_lt hnot) (h.1 a hmem), h⟩

theorem jsSort_go_perm (f : Point → ℚ) (l acc : List Point) :
    List.Perm (l.foldl (fun acc p => insertK f p acc) acc) (acc ++ l) := by
  induction l generalizing acc with
  | nil => simp
  | cons p ps ih =>
    have h1 : List.Perm ((p :: ps).foldl (fun acc p => insertK f p acc) acc)
        ((insertK f p acc) ++ ps) := by simpa using ih (insertK f p acc)
    have h2 : List.Perm ((insertK f p acc) ++ ps) ((p :: acc) ++ ps) :=
      (insertK_perm f p acc).append_right ps
    exact (h1.trans h2).trans List.perm_middle.symm

theorem jsSort_go_sorted (f : Point → ℚ) (l acc : List Point)
    (h : sortedK f acc) :
    sortedK f (l.foldl (fun acc p => insertK f p acc) acc) := by
  induction l generalizing acc with
  | nil => simpa
  | cons p ps ih => exact ih (insertK f p acc) (insertK_sorted f p acc h)

theorem jsSort_perm (f : Point → ℚ) (l : List Point) :
    List.Perm (jsSort f l) l := by
  simpa [jsSort] using jsSort_go_perm f l []

theorem jsSort_sorted (f : Point → ℚ) (l : List Point) :
    sortedK f (jsSort f l) := by
  apply jsSort_go_sorted
  simp [sortedK]

theorem jsSort_pair (f : Point → ℚ) (a b : Point) :
    jsSort f [a, b] = if f a ≤ f b then [a, b] else [b, a] := by
  simp [jsSort, insertK, List.foldl]

theorem jsSort_four (f : Point → ℚ) (a b c d : Point) :
    ∃ q0 q1 q2 q3 : Point,
      jsSort f [a, b, c, d] = [q0, q1, q2, q3] ∧
      List.Perm [q0, q1, q2, q3] [a, b, c, d] ∧
      f q0 ≤ f q1 ∧ f q0 ≤ f q2 ∧ f q0 ≤ f q3 ∧
      f q1 ≤ f q2 ∧ f q1 ≤ f q3 ∧ f q2 ≤ f q3 := by
  have hperm := jsSort_perm f [a, b, c, d]
  have hsort := jsSort_sorted f [a, b, c, d]
  have hlen : (jsSort f [a, b, c, d]).length = 4 := by
    simpa using hperm.length_eq
  rcases e : jsSort f [a, b, c, d] with _ | ⟨q0, _ | ⟨q1, _ | ⟨q2, _ | ⟨q3, rest⟩⟩⟩⟩ <;>
    rw [e] at hlen <;> simp at hlen
  have hrest : rest = [] := by
    cases rest with
    | nil => rfl
    | cons _ _ => simp at hlen
  subst hrest
  rw [e] at hperm hsort
  simp only [sortedK, List.pairwise_cons, List.mem_cons, List.mem_singleton,
    List.not_mem_nil] at hsort
  refine ⟨q0, q1, q2, q3, rfl, hperm, ?_, ?_, ?_, ?_, ?_, ?_⟩
  · exact hsort.1 q1 (by simp)
  · exact hsort.1 q2 (by simp)
  · exact hsort.1 q3 (by simp)
  · exact hsort.2.1 q2 (by simp)
  · exact hsort.2.1 q3 (by simp)
  · exact hsort.2.2.1 q3 (by simp)

/-- Structural characterisation of orderPoints on a 4-point input: the output
is [tl, tr, br, bl] where the top pair has the two smallest y values (each
top y is ≤ each bottom y), each pair is ordered by x, the whole output is a
permutation of the input, and ties in x within a pair keep the y-sorted
order (a consequence of the stable sort). -/
theorem orderPoints_shape (a b c d : Point) :
    ∃ t0 t1 b0 b1 : Point,
      orderPoints [a, b, c, d] = [t0, t1, b1, b0] ∧
      List.Perm [t0, t1, b0, b1] [a, b, c, d] ∧
      t0.x ≤ t1.x ∧ b0.x ≤ b1.x ∧
      t0.y ≤ b0.y ∧ t0.y ≤ b1.y ∧ t1.y ≤ b0.y ∧ t1.y ≤ b1.y ∧
      (t0.x = t1.x → t0.y ≤ t1.y) ∧ (b0.x = b1.x → b0.y ≤ b1.y) := by
  obtain ⟨q0, q1, q2, q3, hrect, hperm, h01, h02, h03, h12, h13, h23⟩ :=
    jsSort_four (fun p => p.y) a b c d
  have hout : orderPoints [a, b, c, d] =
      [(jsSort (fun p => p.x) [q0, q1]).getD 0 pz,
       (jsSort (fun p => p.x) [q0, q1]).getD 1 pz,
       (jsSort (fun p => p.x) [q2, q3]).getD 1 pz,
       (jsSort (fun p => p.x) [q2, q3]).getD 0 pz] := by
    simp only [orderPoints, hrect]
    simp [List.getD]
  by_cases htop : q0.x ≤ q1.x <;> by_cases hbot : q2.x ≤ q3.x
  · refine ⟨q0, q1, q2, q3, ?_, hperm, htop, hbot, h02, h03, h12, h13,
      fun _ => h01, fun _ => h23⟩
    rw [hout, jsSort_pair, jsSort_pair, if_pos htop, if_pos hbot]
    simp [List.getD]
  · push_neg at hbot
    refine ⟨q0, q1, q3, q2, ?_, ?_, htop, le_of_lt hbot, h03, h02, h13, h12,
      fun _ => h01, fun hx => absurd hx (ne_of_lt hbot)⟩
    · rw [hout, jsSort_pair, jsSort_pair, if_pos htop, if_neg (not_le.mpr hbot)]
      simp [List.getD]
    · exact (List.Perm.cons q0 (List.Perm.cons q1 (List.Perm.swap q2 q3 []))).trans hperm
  · push_neg at htop
    refine ⟨q1, q0, q2, q3, ?_, ?_, le_of_lt htop, hbot, h12, h13, h02, h03,
      fun hx => absurd hx (ne_of_lt htop), fun _ => h23⟩
    · rw [hout, jsSort_pair, jsSort_pair, if_neg (not_le.mpr htop), if_pos hbot]
      simp [List.getD]
    · exact (List.Perm.swap q0 q1 [q2, q3]).trans hperm
  · push_neg at htop hbot
    refine ⟨q1, q0, q3, q2, ?_, ?_, le_of_lt htop, le_of_lt hbot, h13, h12, h03, h02,
      fun hx => absurd hx (ne_of_lt htop), fun hx => absurd hx (ne_of_lt hbot)⟩
    · rw [hout, jsSort_pair, jsSort_pair, if_neg (not_le.mpr htop),
        if_neg (not_le.mpr hbot)]
      simp [List.getD]
    · exact ((List.Perm.swap q0 q1 [q3, q2]).trans
        (List.Perm.cons q0 (List.Perm.cons q1 (List.Perm.swap q2 q3 [])))).trans hperm

/-- A list already in canonical [tl, tr, br, bl] shape (with the stability
side conditions produced by orderPoints) is a fixed point of orderPoints. -/
theorem orderPoints_fixed (t0 t1 b0 b1 : Point)
    (ht : t0.x ≤ t1.x) (hb : b0.x ≤ b1.x)
    (h00 : t0.y ≤ b0.y) (h01 : t0.y ≤ b1.y) (h10 : t1.y ≤ b0.y)
    (h11 : t1.y ≤ b1.y)
    (st : t0.x = t1.x → t0.y ≤ t1.y) (sb : b0.x = b1.x → b0.y ≤ b1.y) :
    orderPoints [t0, t1, b1, b0] = [t0, t1, b1, b0] := by
  by_cases hY : t0.y ≤ t1.y
  · have hrect : jsSort (fun p => p.y) [t0, t1, b1, b0] =
        if b1.y ≤ b0.y then [t0, t1, b1, b0] else [t0, t1, b0, b1] := by
      by_cases hZ : b1.y ≤ b0.y <;>
        simp [jsSort, List.foldl, insertK, hY, h00, h01, h10, h11, hZ]
    by_cases hZ : b1.y ≤ b0.y
    · rw [if_pos hZ] at hrect
      by_cases hbx : b1.x ≤ b0.x
      · have hxeq : b0.x = b1.x := le_antisymm hb hbx
        have hyeq : b0.y = b1.y := le_antisymm (sb hxeq) hZ
        have hbb : b0 = b1 := Point.ext hxeq hyeq
        subst hbb
        simp [orderPoints, hrect, jsSort_pair, List.getD, ht]
      · simp [orderPoints, hrect, jsSort_pair, List.getD, ht, hbx]
    · rw [if_neg hZ] at hrect
      simp [orderPoints, hrect, jsSort_pair, List.getD, ht, hb]
  · push_neg at hY
    have hst : ¬ t1.x ≤ t0.x := by
      intro hle
      exact absurd (st (le_antisymm ht hle)) (not_le.mpr hY)
    have hrect : jsSort (fun p => p.y) [t0, t1, b1, b0] =
        if b1.y ≤ b0.y then [t1, t0, b1, b0] else [t1, t0, b0, b1] := by
      by_cases hZ : b1.y ≤ b0.y <;>
        simp [jsSort, List.foldl, insertK, not_le.mpr hY, h00, h01, h10, h11, hZ]
    by_cases hZ : b1.y ≤ b0.y
    · rw [if_pos hZ] at hrect
      by_cases hbx : b1.x ≤ b0.x
      · have hxeq : b0.x = b1.x := le_antisymm hb hbx
        have hyeq : b0.y = b1.y := le_antisymm (sb hxeq) hZ
        have hbb : b0 = b1 := Point.ext hxeq hyeq
        subst hbb
        simp [orderPoints, hrect, jsSort_pair, List.getD, hst]
      · simp [orderPoints, hrect, jsSort_pair, List.getD, hst, hbx]
    · rw [if_neg hZ] at hrect
      simp [orderPoints, hrect, jsSort_pair, List.getD, hst, hb]

/-- Claim C4: orderPoints sorts the 4 input points by y ascending, takes the
two smallest-y points as the top pair and the two largest-y points as the
bottom pair, orders each pair by x ascending, and returns
[top-left, top-right, bottom-right, bottom-left]: in the output, tl and tr
are the two points of minimal y with tl.x ≤ tr.x, and bl and br are the two
points of maximal y with bl.x ≤ br.x, the whole being a permutation of the
input. -/
theorem orderPoints_canonical (a b c d : Point) :
    ∃ tl tr bl br : Point,
      orderPoints [a, b, c, d] = [tl, tr, br, bl] ∧
      List.Perm [tl, tr, bl, br] [a, b, c, d] ∧
      tl.x ≤ tr.x ∧ bl.x ≤ br.x ∧
      tl.y ≤ bl.y ∧ tl.y ≤ br.y ∧ tr.y ≤ bl.y ∧ tr.y ≤ br.y := by
  obtain ⟨t0, t1, b0, b1, hout, hperm, ht, hb, h00, h01, h10, h11, _, _⟩ :=
    orderPoints_shape a b c d
  exact ⟨t0, t1, b0, b1, hout, hperm, ht, hb, h00, h01, h10, h11⟩

/-- Claim C5: orderPoints is idempotent on every 4-point input (in
particular on every valid convex quadrilateral given in any cyclic or
reflected order): re-ordering an already-ordered quadrilateral yields the
same result. -/
theorem orderPoints_idem (a b c d : Point) :
    orderPoints (orderPoints [a, b, c, d]) = orderPoints [a, b, c, d] := by
  obtain ⟨t0, t1, b0, b1, hout, _, ht, hb, h00, h01, h10, h11, st, sb⟩ :=
    orderPoints_shape a b c d
  rw [hout]
  exact orderPoints_fixed t0 t1 b0 b1 ht hb h00 h01 h10 h11 st sb

/-- Claim C10: on a 4-point input, orderPoints returns exactly 4 points that
are a permutation of the input: no point is created, dropped or modified.
(The JS function spreads the input into a fresh array before the in-place
sort, so the input array itself is untouched; in this pure embedding that
non-mutation is inherent: the input list is immutable.) -/
theorem orderPoints_perm (a b c d : Point) :
    (orderPoints [a, b, c, d]).length = 4 ∧
      List.Perm (orderPoints [a, b, c, d]) [a, b, c, d] := by
  obtain ⟨t0, t1, b0, b1, hout, hperm, _, _, _, _, _, _, _, _⟩ :=
    orderPoints_shape a b c d
  constructor
  · rw [hout]; rfl
  · rw [hout]
    exact (List.Perm.cons t0 (List.Perm.cons t1 (List.Perm.swap b0 b1 []))).trans hperm

/-!
## Candidate Selector (src/App.tsx lines 88-107)

The per-tick loop iterates the contours found in the mask; for each contour
it computes cv.contourArea, and when the area exceeds 10000 it approximates
the contour with cv.approxPolyDP and keeps the approximation when it has
exactly 4 rows, cv.isContourConvex holds, and the area beats the running
maximum.  The three OpenCV calls are external to this repository, so the
selection logic is embedded parametrically in them; a concrete instance
(shoelace area, cross-product convexity, identity approximation) is used for
the closed scenario.
-/

/-- The external contour operations the selection loop calls: cv.contourArea,
cv.approxPolyDP at tolerance 0.02 x arc length, and cv.isContourConvex. -/
structure ContourOps (C : Type) where
  area : C → ℚ
  approx : C → List Point
  isConvex : List Point → Bool

/-- A contour survives the selector's shape filters: contour area above the
10000 px² noise floor, exactly 4 approximated vertices, and a convex
approximation. -/
def passes {C : Type} (ops : ContourOps C) (cnt : C) : Prop :=
  10000 < ops.area cnt ∧ (ops.approx cnt).length = 4 ∧
    ops.isConvex (ops.approx cnt) = true

instance {C : Type} (ops : ContourOps C) (cnt : C) : Decidable (passes ops cnt) := by
  unfold passes; infer_instance

/-- The selection loop of src/App.tsx lines 91-107, with the running
maxArea / paperContour accumulator made explicit. -/
def selectLoop {C : Type} (ops : ContourOps C) :
    List C → ℚ → Option (List Point) → ℚ × Option (List Point)
  | [], maxArea, paper => (maxArea, paper)
  | cnt :: rest, maxArea, paper =>
    if 10000 < ops.area cnt then
      if (ops.approx cnt).length = 4 ∧ ops.isConvex (ops.approx cnt) = true ∧
          maxArea < ops.area cnt then
        selectLoop ops rest (ops.area cnt) (some (ops.approx cnt))
      else
        selectLoop ops rest maxArea paper
    else
      selectLoop ops rest maxArea paper

/-- Candidate Selector: run the loop with maxArea = 0 and no contour, return
the surviving approximated quadrilateral (or none). -/
def selectCandidate {C : Type} (ops : ContourOps C) (contours : List C) :
    Option (List Point) :=
  (selectLoop ops contours 0 none).2

theorem selectLoop_fst_mono {C : Type} (ops : ContourOps C) (l : List C)
    (m : ℚ) (p : Option (List Point)) : m ≤ (selectLoop ops l m p).1 := by
  induction l generalizing m p with
  | nil => simp [selectLoop]
  | cons cnt rest ih =>
    simp only [selectLoop]
    split
    · split
      · rename_i hcond
        exact le_of_lt (lt_of_lt_of_le hcond.2.2 (ih _ _))
      · exact ih m p
    · exact ih m p

theorem selectLoop_fst_ge {C : Type} (ops : ContourOps C) (l : List C)
    (m : ℚ) (p : Option (List Point)) (cnt : C) (hmem : cnt ∈ l)
    (hp : passes ops cnt) : ops.area cnt ≤ (selectLoop ops l m p).1 := by
  induction l generalizing m p with
  | nil => cases hmem
  | cons c rest ih =>
    rcases List.mem_cons.mp hmem with rfl | hmem'
    · simp only [selectLoop]
      rw [if_pos hp.1]
      by_cases hcond : (ops.approx cnt).length = 4 ∧
          ops.isConvex (ops.approx cnt) = true ∧ m < ops.area cnt
      · rw [if_pos hcond]
        exact selectLoop_fst_mono ops rest _ _
      · rw [if_neg hcond]
        have hm : ops.area cnt ≤ m := by
          by_contra hlt
          exact hcond ⟨hp.2.1, hp.2.2, lt_of_not_le hlt⟩
        exact le_trans hm (selectLoop_fst_mono ops rest m p)
    · simp only [selectLoop]
      split
      · split
        · exact ih _ _ hmem'
        · exact ih _ _ hmem'
      · exact ih _ _ hmem'

theorem selectLoop_provenance {C : Type} (ops : ContourOps C) (l : List C)
    (m : ℚ) (p : Option (List Point)) :
    ((selectLoop ops l m p).1 = m ∧ (selectLoop ops l m p).2 = p) ∨
      ∃ cnt ∈ l, passes ops cnt ∧
        (selectLoop ops l m p).2 = some (ops.approx cnt) ∧
        (selectLoop ops l m p).1 = ops.area cnt := by
  induction l generalizing m p with
  | nil => left; simp [selectLoop]
  | cons c rest ih =>
    simp only [selectLoop]
    by_cases harea : 10000 < ops.area c
    · rw [if_pos harea]
      by_cases hcond : (ops.approx c).length = 4 ∧
          ops.isConvex (ops.approx c) = true ∧ m < ops.area c
      · rw [if_pos hcond]
        rcases ih (ops.area c) (some (ops.approx c)) with ⟨h1, h2⟩ | ⟨d, hd, hpass, h2, h1⟩
        · right
          exact ⟨c, List.mem_cons_self c rest,
            ⟨harea, hcond.1, hcond.2.1⟩, h2, h1⟩
        · right
          exact ⟨d, List.mem_cons_of_mem c hd, hpass, h2, h1⟩
      · rw [if_neg hcond]
        rcases ih m p with h | ⟨d, hd, hpass, h2, h1⟩
        · left; exact h
        · right; exact ⟨d, List.mem_cons_of_mem c hd, hpass, h2, h1⟩
    · rw [if_neg harea]
      rcases ih m p with h | ⟨d, hd, hpass, h2, h1⟩
      · left; exact h
      · right; exact ⟨d, List.mem_cons_of_mem c hd, hpass, h2, h1⟩

theorem selectLoop_none {C : Type} (ops : ContourOps C) (l : List C)
    (m : ℚ) (p : Option (List Point))
    (h : ∀ cnt ∈ l, ¬ passes ops cnt) :
    selectLoop ops l m p = (m, p) := by
  induction l generalizing m p with
  | nil => rfl
  | cons c rest ih =>
    have hc := h c (List.mem_cons_self c rest)
    have hrest : ∀ cnt ∈ rest, ¬ passes ops cnt :=
      fun cnt hm => h cnt (List.mem_cons_of_mem c hm)
    simp only [selectLoop]
    by_cases harea : 10000 < ops.area c
    · rw [if_pos harea]
      have hcond : ¬ ((ops.approx c).length = 4 ∧
          ops.isConvex (ops.approx c) = true ∧ m < ops.area c) := by
        intro hcond
        exact hc ⟨harea, hcond.1, hcond.2.1⟩
      rw [if_neg hcond]
      exact ih m p hrest
    · rw [if_neg harea]
      exact ih m p hrest

/-!
Concrete contour operations for the closed scenario, modelling the OpenCV
calls mathematically: cv.contourArea is the absolute shoelace area of the
polygon, cv.isContourConvex checks that all cross products of consecutive
edge vectors share a sign, and cv.approxPolyDP on a polygon that is already
an exact quadrilateral is the identity (the spec's Contour Extractor hands
the selector polygons, so the scenario instantiates approx with the
identity).
-/

/-- Consecutive pairs of a closed polygon: each vertex with its cyclic
successor. -/
def cyclePairs (pts : List Point) : List (Point × Point) :=
  pts.zip (pts.rotate 1)

/-- Absolute value written with an explicit sign test (as C fabs computes
it). -/
def rabs (q : ℚ) : ℚ := if q < 0 then -q else q

/-- Shoelace area model of cv.contourArea: half the absolute value of the
signed sum of cross products around the polygon. -/
def contourArea (pts : List Point) : ℚ :=
  rabs ((cyclePairs pts).foldl (fun s pq => s + (pq.1.x * pq.2.y - pq.2.x * pq.1.y)) 0) / 2

/-- Edge vectors of a closed polygon. -/
def edgeVectors (pts : List Point) : List (ℚ × ℚ) :=
  (cyclePairs pts).map (fun pq => (pq.2.x - pq.1.x, pq.2.y - pq.1.y))

/-- Cross products of consecutive edge vectors of a closed polygon. -/
def edgeCrosses (pts : List Point) : List ℚ :=
  ((edgeVectors pts).zip ((edgeVectors pts).rotate 1)).map
    (fun uv => uv.1.1 * uv.2.2 - uv.2.1 * uv.1.2)

/-- Cross-product convexity model of cv.isContourConvex: every internal angle
at most 180 degrees, i.e. all cross products of consecutive edges share a
sign (zeros allowed). -/
def isContourConvexB (pts : List Point) : Bool :=
  (edgeCrosses pts).all (fun c => 0 ≤ c) || (edgeCrosses pts).all (fun c => c ≤ 0)

/-- Concrete contour operations over plain polygons, used for the closed
scenario: shoelace area, identity approximation, cross-product convexity. -/
def polyOps : ContourOps (List Point) :=
  ⟨contourArea, fun pts => pts, isContourConvexB⟩

/-- The 200 x 100 rectangle of area 20000 px² used in the scenario. -/
def rectSmall : List Point := [⟨0, 0⟩, ⟨200, 0⟩, ⟨200, 100⟩, ⟨0, 100⟩]

/-- The 250 x 200 rectangle of area 50000 px², disjoint from rectSmall, used
in the scenario. -/
def rectBig : List Point := [⟨300, 0⟩, ⟨550, 0⟩, ⟨550, 200⟩, ⟨300, 200⟩]

/-- Soundness of the Candidate Selector: a returned quadrilateral is the
approximation of some iterated contour that passed every filter, and its
contour's area is maximal among all passing contours. -/
theorem selectCandidate_sound {C : Type} (ops : ContourOps C)
    (contours : List C) (q : List Point)
    (hq : selectCandidate ops contours = some q) :
    ∃ cnt ∈ contours, ops.approx cnt = q ∧ q.length = 4 ∧
      ops.isConvex q = true ∧ 10000 < ops.area cnt ∧
      ∀ cnt' ∈ contours, passes ops cnt' → ops.area cnt' ≤ ops.area cnt := by
  rcases selectLoop_provenance ops contours 0 none with ⟨_, h2⟩ | ⟨cnt, hmem, hpass, h2, h1⟩
  · rw [selectCandidate, h2] at hq
    cases hq
  · rw [selectCandidate, h2] at hq
    obtain rfl : ops.approx cnt = q := Option.some.inj hq
    refine ⟨cnt, hmem, rfl, hpass.2.1, hpass.2.2, hpass.1, ?_⟩
    intro cnt' hmem' hpass'
    have hge := selectLoop_fst_ge ops contours 0 none cnt' hmem' hpass'
    rw [h1] at hge
    exact hge

/-- Claim C1: the Candidate Selector returns a quadrilateral only if its
contour's enclosed area is strictly greater than 10000 px², the
approximation has exactly 4 vertices, and it is convex; among all contours
passing these checks it returns one of maximum area; it returns none when no
contour survives; and on a mask containing two disjoint convex
quadrilaterals of areas 20000 px² and 50000 px² (both passing the shape
checks) it returns the 50000 px² one. -/
theorem candidateSelector_spec :
    (∀ (C : Type) (ops : ContourOps C) (contours : List C) (q : List Point),
      selectCandidate ops contours = some q →
        ∃ cnt ∈ contours, ops.approx cnt = q ∧ q.length = 4 ∧
          ops.isConvex q = true ∧ 10000 < ops.area cnt ∧
          ∀ cnt' ∈ contours, passes ops cnt' → ops.area cnt' ≤ ops.area cnt) ∧
    (∀ (C : Type) (ops : ContourOps C) (contours : List C),
      (∀ cnt ∈ contours, ¬ passes ops cnt) →
        selectCandidate ops contours = none) ∧
    selectCandidate polyOps [rectSmall, rectBig] = some rectBig := by
  refine ⟨?_, ?_, ?_⟩
  · intro C ops contours q hq
    exact selectCandidate_sound ops contours q hq
  · intro C ops contours h
    rw [selectCandidate, selectLoop_none ops contours 0 none h]
  · norm_num [selectCandidate, selectLoop, polyOps, contourArea, cyclePairs,
      List.rotate, rabs, isContourConvexB, edgeCrosses, edgeVectors, rectSmall,
      rectBig]

/-!
## Geometric Validator (src/App.tsx lines 123-147)

The validator reads the candidate's points in extraction order, averages the
two opposite-edge length pairs into avgWidth and avgHeight, and accepts the
candidate exactly when max/min of those averages lies strictly between 1.2
and 1.8.  Euclidean lengths (Math.hypot) live in the reals.  Division is the
Lean total division, under which max/0 = 0; the JS runtime instead produces
Infinity (or NaN when both averages vanish) — under either semantics a zero
minimum makes both strict comparisons fail, so the accept/reject outcome of
the embedded predicate agrees with the JS code on every input.
-/

/-- Math.hypot distance between two points (src/App.tsx line 123). -/
noncomputable def dist (p1 p2 : Point) : ℝ :=
  Real.sqrt (((p2.x - p1.x : ℚ) : ℝ) ^ 2 + ((p2.y - p1.y : ℚ) : ℝ) ^ 2)

/-- Average of the two `width` edges w1 = |c0c1| and w2 = |c2c3|
(src/App.tsx lines 124-128). -/
noncomputable def avgWidth (c : List Point) : ℝ :=
  (dist (c.getD 0 pz) (c.getD 1 pz) + dist (c.getD 2 pz) (c.getD 3 pz)) / 2

/-- Average of the two `height` edges h1 = |c1c2| and h2 = |c3c0|
(src/App.tsx lines 126-129). -/
noncomputable def avgHeight (c : List Point) : ℝ :=
  (dist (c.getD 1 pz) (c.getD 2 pz) + dist (c.getD 3 pz) (c.getD 0 pz)) / 2

/-- aspectRatio = max(avgWidth, avgHeight) / min(avgWidth, avgHeight)
(src/App.tsx line 130). -/
noncomputable def aspectRatio (c : List Point) : ℝ :=
  max (avgWidth c) (avgHeight c) / min (avgWidth c) (avgHeight c)

/-- The Geometric Validator accepts the candidate iff
1.2 < aspectRatio < 1.8 (src/App.tsx line 134). -/
def validatorAccepts (c : List Point) : Prop :=
  1.2 < aspectRatio c ∧ aspectRatio c < 1.8

/-- Evaluation helper: the hypot distance of two points whose squared
coordinate differences sum to a perfect rational square. -/
theorem dist_eval (p q : Point) (d : ℚ) (hd : 0 ≤ d)
    (h : (q.x - p.x) ^ 2 + (q.y - p.y) ^ 2 = d ^ 2) : dist p q = (d : ℝ) := by
  have hcast : ((q.x - p.x : ℚ) : ℝ) ^ 2 + ((q.y - p.y : ℚ) : ℝ) ^ 2
      = ((d : ℝ)) ^ 2 := by exact_mod_cast congrArg (fun z : ℚ => (z : ℝ)) h
  rw [dist, hcast, Real.sqrt_sq (by exact_mod_cast hd)]

/-- Claim C2: for a candidate with points c0, c1, c2, c3 in extraction
order, the Geometric Validator computes avgWidth = (|c0c1| + |c2c3|)/2 and
avgHeight = (|c1c2| + |c3c0|)/2, sets aspectRatio = max/min of the two, and
accepts iff 1.2 < aspectRatio < 1.8; when min(avgWidth, avgHeight) = 0
(collinear or coincident points) it rejects — the total division of the
model returns 0 there, and the JS division returns Infinity or NaN, so both
semantics fail the strict range test and no division fault occurs. -/
theorem validator_spec (c0 c1 c2 c3 : Point) :
    avgWidth [c0, c1, c2, c3] = (dist c0 c1 + dist c2 c3) / 2 ∧
    avgHeight [c0, c1, c2, c3] = (dist c1 c2 + dist c3 c0) / 2 ∧
    aspectRatio [c0, c1, c2, c3] =
      max (avgWidth [c0, c1, c2, c3]) (avgHeight [c0, c1, c2, c3]) /
        min (avgWidth [c0, c1, c2, c3]) (avgHeight [c0, c1, c2, c3]) ∧
    (validatorAccepts [c0, c1, c2, c3] ↔
      1.2 < aspectRatio [c0, c1, c2, c3] ∧
        aspectRatio [c0, c1, c2, c3] < 1.8) ∧
    (min (avgWidth [c0, c1, c2, c3]) (avgHeight [c0, c1, c2, c3]) = 0 →
      ¬ validatorAccepts [c0, c1, c2, c3]) := by
  refine ⟨by simp [avgWidth, List.getD], by simp [avgHeight, List.getD],
    rfl, Iff.rfl, ?_⟩
  intro hmin hacc
  have hzero : aspectRatio [c0, c1, c2, c3] = 0 := by
    rw [aspectRatio, hmin, div_zero]
  simp only [validatorAccepts, hzero] at hacc
  exact absurd hacc.1 (by norm_num)

/-- Witness for C2 at a fully coincident (degenerate) candidate: all four
points equal makes both edge averages zero and the validator rejects. -/
theorem validator_spec_witness : ¬ validatorAccepts [pz, pz, pz, pz] := by
  have hd : dist pz pz = ((0 : ℚ) : ℝ) := dist_eval pz pz 0 le_rfl (by norm_num [pz])
  have hmin : min (avgWidth [pz, pz, pz, pz]) (avgHeight [pz, pz, pz, pz]) = 0 := by
    simp [avgWidth, avgHeight, List.getD, hd]
  exact (validator_spec pz pz pz pz).2.2.2.2 hmin

/-!
## Detection Loop tick (src/App.tsx lines 88-151)

Each tick runs the Candidate Selector over the contours found in the frame
and then, if a candidate was found, the Geometric Validator; the published
"current document" value (the detectedCorners React state) is replaced by
the accepted corner list or set to null.  Because acceptance is a predicate
over real square roots, the tick is embedded as a step relation from the
frame's contours to the newly published value.
-/

/-- One tick of the detection loop: the published value next is the selected
candidate when the validator accepts it, and null when selection or
validation fails (src/App.tsx lines 112-151). -/
def tickStep {C : Type} (ops : ContourOps C) (contours : List C)
    (next : Option (List Point)) : Prop :=
  (selectCandidate ops contours = none ∧ next = none) ∨
  (∃ corners, selectCandidate ops contours = some corners ∧
    ((validatorAccepts corners ∧ next = some corners) ∨
     (¬ validatorAccepts corners ∧ next = none)))

/-- Claim C3: every tick publishes either null or a quadrilateral that
passed every acceptance condition at once — exactly 4 vertices, convex (as
judged by the library's convexity test on the approximation), contour area
strictly above 10000 px², and aspect ratio strictly between 1.2 and 1.8;
and a published value always exists for every tick (the loop never leaves
the previous value partially updated). -/
theorem published_invariant :
    (∀ (C : Type) (ops : ContourOps C) (contours : List C),
      ∃ next, tickStep ops contours next) ∧
    (∀ (C : Type) (ops : ContourOps C) (contours : List C)
      (next : Option (List Point)), tickStep ops contours next →
        next = none ∨
        ∃ q, next = some q ∧ q.length = 4 ∧ validatorAccepts q ∧
          ∃ cnt ∈ contours, ops.approx cnt = q ∧ ops.isConvex q = true ∧
            10000 < ops.area cnt) := by
  constructor
  · intro C ops contours
    cases e : selectCandidate ops contours with
    | none => exact ⟨none, Or.inl ⟨e, rfl⟩⟩
    | some corners =>
      rcases Classical.em (validatorAccepts corners) with hacc | hrej
      · exact ⟨some corners, Or.inr ⟨corners, e, Or.inl ⟨hacc, rfl⟩⟩⟩
      · exact ⟨none, Or.inr ⟨corners, e, Or.inr ⟨hrej, rfl⟩⟩⟩
  · intro C ops contours next hstep
    rcases hstep with ⟨_, rfl⟩ | ⟨corners, hsel, ⟨hacc, rfl⟩ | ⟨_, rfl⟩⟩
    · exact Or.inl rfl
    · right
      obtain ⟨cnt, hmem, happrox, hlen, hconv, harea, _⟩ :=
        selectCandidate_sound ops contours corners hsel
      exact ⟨corners, rfl, hlen, hacc, cnt, hmem, happrox, hconv, harea⟩
    · exact Or.inl rfl

/-- Witness for C1 at the two-rectangle scenario: instantiating the
universal soundness part at the concrete mask discharges its hypothesis
with the concrete selection result. -/
theorem candidateSelector_spec_witness :
    ∃ cnt ∈ [rectSmall, rectBig], polyOps.approx cnt = rectBig ∧
      rectBig.length = 4 ∧ polyOps.isConvex rectBig = true ∧
      10000 < polyOps.area cnt ∧
      ∀ cnt' ∈ [rectSmall, rectBig], passes polyOps cnt' →
        polyOps.area cnt' ≤ polyOps.area cnt :=
  candidateSelector_spec.1 (List Point) polyOps [rectSmall, rectBig] rectBig
    candidateSelector_spec.2.2

/-- A 100 x 141 rectangle: a concrete quadrilateral that passes every
acceptance condition (area 14100 px², convex, aspect ratio 1.41). -/
def rectA4 : List Point := [⟨0, 0⟩, ⟨100, 0⟩, ⟨100, 141⟩, ⟨0, 141⟩]

theorem rectA4_accepted : validatorAccepts rectA4 := by
  have d01 : dist ⟨0, 0⟩ ⟨100, 0⟩ = ((100 : ℚ) : ℝ) :=
    dist_eval _ _ 100 (by norm_num) (by norm_num)
  have d23 : dist ⟨100, 141⟩ ⟨0, 141⟩ = ((100 : ℚ) : ℝ) :=
    dist_eval _ _ 100 (by norm_num) (by norm_num)
  have d12 : dist ⟨100, 0⟩ ⟨100, 141⟩ = ((141 : ℚ) : ℝ) :=
    dist_eval _ _ 141 (by norm_num) (by norm_num)
  have d30 : dist ⟨0, 141⟩ ⟨0, 0⟩ = ((141 : ℚ) : ℝ) :=
    dist_eval _ _ 141 (by norm_num) (by norm_num)
  have hw : avgWidth rectA4 = 100 := by
    simp [avgWidth, rectA4, List.getD, d01, d23]
  have hh : avgHeight rectA4 = 141 := by
    simp [avgHeight, rectA4, List.getD, d12, d30]
  have hratio : aspectRatio rectA4 = 141 / 100 := by
    rw [aspectRatio, hw, hh, max_eq_right (by norm_num), min_eq_left (by norm_num)]
  constructor <;> rw [hratio] <;> norm_num

/-- Witness for C3: a tick over a mask holding the accepted 100 x 141
rectangle publishes it, and the invariant concluded from the claim theorem
holds of that published value. -/
theorem published_invariant_witness :
    (some rectA4 : Option (List Point)) = none ∨
      ∃ q, (some rectA4 : Option (List Point)) = some q ∧ q.length = 4 ∧
        validatorAccepts q ∧
        ∃ cnt ∈ [rectA4], polyOps.approx cnt = q ∧
          polyOps.isConvex q = true ∧ 10000 < polyOps.area cnt := by
  have hsel : selectCandidate polyOps [rectA4] = some rectA4 := by
    norm_num [selectCandidate, selectLoop, polyOps, contourArea, cyclePairs,
      List.rotate, rabs, isContourConvexB, edgeCrosses, edgeVectors, rectA4]
  exact published_invariant.2 (List Point) polyOps [rectA4] (some rectA4)
    (Or.inr ⟨rectA4, hsel, Or.inl ⟨rectA4_accepted, rfl⟩⟩)

/-!
## Rectifier (src/App.tsx lines 209-246)

handleExtract orders the published corners, builds the source and
destination correspondence arrays srcTri = [tl, tr, br, bl] and
dstTri = [(0,0), (W,0), (W,H), (0,H)] with W = 850 and H = 1100, obtains the
3x3 perspective matrix from cv.getPerspectiveTransform, and warps the frame
through it.  cv.getPerspectiveTransform is external to the repository; it is
modelled from the spec: the unique (up to scale) projective map sending the
four source corners to the four destination corners, built here
division-free through the projective basis construction — a matrix taking
the standard projective basis to the source quadrilateral, composed with the
adjugate (inverse up to the determinant factor) of the matrix taking the
basis to the destination quadrilateral.
-/

/-- A 3x3 rational matrix, row-major. -/
structure M3 where
  m00 : ℚ
  m01 : ℚ
  m02 : ℚ
  m10 : ℚ
  m11 : ℚ
  m12 : ℚ
  m20 : ℚ
  m21 : ℚ
  m22 : ℚ
deriving DecidableEq, Repr

/-- A homogeneous coordinate triple. -/
structure V3 where
  x : ℚ
  y : ℚ
  z : ℚ
deriving DecidableEq, Repr

/-- Matrix-vector product. -/
def M3.mulVec (A : M3) (v : V3) : V3 :=
  ⟨A.m00 * v.x + A.m01 * v.y + A.m02 * v.z,
   A.m10 * v.x + A.m11 * v.y + A.m12 * v.z,
   A.m20 * v.x + A.m21 * v.y + A.m22 * v.z⟩

/-- Matrix product. -/
def M3.mul (A B : M3) : M3 :=
  ⟨A.m00 * B.m00 + A.m01 * B.m10 + A.m02 * B.m20,
   A.m00 * B.m01 + A.m01 * B.m11 + A.m02 * B.m21,
   A.m00 * B.m02 + A.m01 * B.m12 + A.m02 * B.m22,
   A.m10 * B.m00 + A.m11 * B.m10 + A.m12 * B.m20,
   A.m10 * B.m01 + A.m11 * B.m11 + A.m12 * B.m21,
   A.m10 * B.m02 + A.m11 * B.m12 + A.m12 * B.m22,
   A.m20 * B.m00 + A.m21 * B.m10 + A.m22 * B.m20,
   A.m20 * B.m01 + A.m21 * B.m11 + A.m22 * B.m21,
   A.m20 * B.m02 + A.m21 * B.m12 + A.m22 * B.m22⟩

/-- Determinant of a 3x3 matrix. -/
def M3.det (A : M3) : ℚ :=
  A.m00 * (A.m11 * A.m22 - A.m12 * A.m21)
    - A.m01 * (A.m10 * A.m22 - A.m12 * A.m20)
    + A.m02 * (A.m10 * A.m21 - A.m11 * A.m20)

/-- Adjugate (transposed cofactor matrix): A.mul A.adjugate = A.det * 1. -/
def M3.adjugate (A : M3) : M3 :=
  ⟨A.m11 * A.m22 - A.m12 * A.m21,
   A.m02 * A.m21 - A.m01 * A.m22,
   A.m01 * A.m12 - A.m02 * A.m11,
   A.m12 * A.m20 - A.m10 * A.m22,
   A.m00 * A.m22 - A.m02 * A.m20,
   A.m02 * A.m10 - A.m00 * A.m12,
   A.m10 * A.m21 - A.m11 * A.m20,
   A.m01 * A.m20 - A.m00 * A.m21,
   A.m00 * A.m11 - A.m01 * A.m10⟩

/-- Scalar multiple of a homogeneous triple. -/
def smul3 (k : ℚ) (v : V3) : V3 := ⟨k * v.x, k * v.y, k * v.z⟩

/-- Homogeneous coordinates of a point. -/
def hom (p : Point) : V3 := ⟨p.x, p.y, 1⟩

/-- Twice the signed area of the triangle p q r; zero exactly when the three
points are collinear. -/
def detTri (p q r : Point) : ℚ :=
  p.x * (q.y - r.y) - q.x * (p.y - r.y) + r.x * (p.y - q.y)

/-- The matrix sending the standard projective basis e1, e2, e3, e1+e2+e3 to
the homogeneous images of p1, p2, p3, p4 (columns scaled by the Cramer
cofactors of p4 in the triangle p1 p2 p3). -/
def basisMat (p1 p2 p3 p4 : Point) : M3 :=
  ⟨detTri p4 p2 p3 * p1.x, detTri p1 p4 p3 * p2.x, detTri p1 p2 p4 * p3.x,
   detTri p4 p2 p3 * p1.y, detTri p1 p4 p3 * p2.y, detTri p1 p2 p4 * p3.y,
   detTri p4 p2 p3, detTri p1 p4 p3, detTri p1 p2 p4⟩

/-- Modelled from the spec: cv.getPerspectiveTransform (external to this
repository) computes the unique perspective transform carrying each source
corner to the paired destination corner; here it is realised as the
destination basis matrix composed with the adjugate of the source basis
matrix, which is that map up to a nonzero scale whenever no three source
and no three destination corners are collinear. -/
def getPerspectiveTransform (s1 s2 s3 s4 t1 t2 t3 t4 : Point) : M3 :=
  (basisMat t1 t2 t3 t4).mul (basisMat s1 s2 s3 s4).adjugate

/-- Apply a perspective matrix to a point: homogeneous image followed by
perspective division; none when the image lies on the line at infinity. -/
def applyTransform (A : M3) (p : Point) : Option Point :=
  let v := A.mulVec (hom p)
  if v.z = 0 then none else some ⟨v.x / v.z, v.y / v.z⟩

theorem mul_mulVec (A B : M3) (v : V3) :
    (A.mul B).mulVec v = A.mulVec (B.mulVec v) := by
  simp only [M3.mul, M3.mulVec]
  simp only [V3.mk.injEq]
  refine ⟨by ring, by ring, by ring⟩

theorem mulVec_smul (A : M3) (k : ℚ) (v : V3) :
    A.mulVec (smul3 k v) = smul3 k (A.mulVec v) := by
  simp only [M3.mulVec, smul3]
  simp only [V3.mk.injEq]
  refine ⟨by ring, by ring, by ring⟩

theorem smul3_smul3 (k j : ℚ) (v : V3) :
    smul3 k (smul3 j v) = smul3 (k * j) v := by
  simp only [smul3]
  simp only [V3.mk.injEq]
  refine ⟨by ring, by ring, by ring⟩

theorem adj_basis_p1 (p1 p2 p3 p4 : Point) :
    (basisMat p1 p2 p3 p4).adjugate.mulVec (hom p1) =
      smul3 (detTri p1 p4 p3 * detTri p1 p2 p4 * detTri p1 p2 p3) ⟨1, 0, 0⟩ := by
  simp only [basisMat, M3.adjugate, M3.mulVec, hom, detTri, smul3]
  simp only [V3.mk.injEq]
  refine ⟨by ring, by ring, by ring⟩

theorem adj_basis_p2 (p1 p2 p3 p4 : Point) :
    (basisMat p1 p2 p3 p4).adjugate.mulVec (hom p2) =
      smul3 (detTri p4 p2 p3 * detTri p1 p2 p4 * detTri p1 p2 p3) ⟨0, 1, 0⟩ := by
  simp only [basisMat, M3.adjugate, M3.mulVec, hom, detTri, smul3]
  simp only [V3.mk.injEq]
  refine ⟨by ring, by ring, by ring⟩

theorem adj_basis_p3 (p1 p2 p3 p4 : Point) :
    (basisMat p1 p2 p3 p4).adjugate.mulVec (hom p3) =
      smul3 (detTri p4 p2 p3 * detTri p1 p4 p3 * detTri p1 p2 p3) ⟨0, 0, 1⟩ := by
  simp only [basisMat, M3.adjugate, M3.mulVec, hom, detTri, smul3]
  simp only [V3.mk.injEq]
  refine ⟨by ring, by ring, by ring⟩

theorem adj_basis_p4 (p1 p2 p3 p4 : Point) :
    (basisMat p1 p2 p3 p4).adjugate.mulVec (hom p4) =
      smul3 (detTri p4 p2 p3 * detTri p1 p4 p3 * detTri p1 p2 p4) ⟨1, 1, 1⟩ := by
  simp only [basisMat, M3.adjugate, M3.mulVec, hom, detTri, smul3]
  simp only [V3.mk.injEq]
  refine ⟨by ring, by ring, by ring⟩

theorem basis_e1 (t1 t2 t3 t4 : Point) :
    (basisMat t1 t2 t3 t4).mulVec ⟨1, 0, 0⟩ = smul3 (detTri t4 t2 t3) (hom t1) := by
  simp only [basisMat, M3.mulVec, hom, smul3]
  simp only [V3.mk.injEq]
  refine ⟨by ring, by ring, by ring⟩

theorem basis_e2 (t1 t2 t3 t4 : Point) :
    (basisMat t1 t2 t3 t4).mulVec ⟨0, 1, 0⟩ = smul3 (detTri t1 t4 t3) (hom t2) := by
  simp only [basisMat, M3.mulVec, hom, smul3]
  simp only [V3.mk.injEq]
  refine ⟨by ring, by ring, by ring⟩

theorem basis_e3 (t1 t2 t3 t4 : Point) :
    (basisMat t1 t2 t3 t4).mulVec ⟨0, 0, 1⟩ = smul3 (detTri t1 t2 t4) (hom t3) := by
  simp only [basisMat, M3.mulVec, hom, smul3]
  simp only [V3.mk.injEq]
  refine ⟨by ring, by ring, by ring⟩

theorem basis_e4 (t1 t2 t3 t4 : Point) :
    (basisMat t1 t2 t3 t4).mulVec ⟨1, 1, 1⟩ = smul3 (detTri t1 t2 t3) (hom t4) := by
  simp only [basisMat, M3.mulVec, hom, detTri, smul3]
  simp only [V3.mk.injEq]
  refine ⟨by ring, by ring, by ring⟩

/-- If the matrix sends the homogeneous image of p to a nonzero scalar
multiple of the homogeneous image of q, then applying it to p yields
exactly q after perspective division. -/
theorem applyTransform_of_smul (A : M3) (p q : Point) (k : ℚ)
    (h : A.mulVec (hom p) = smul3 k (hom q)) (hk : k ≠ 0) :
    applyTransform A p = some q := by
  have hv : A.mulVec (hom p) = ⟨k * q.x, k * q.y, k * 1⟩ := by
    rw [h]; rfl
  simp only [applyTransform, hv, mul_one]
  rw [if_neg hk]
  congr 1
  ext
  · exact mul_div_cancel_left₀ q.x hk
  · exact mul_div_cancel_left₀ q.y hk

theorem gpt_maps_p1 (s1 s2 s3 s4 t1 t2 t3 t4 : Point) :
    (getPerspectiveTransform s1 s2 s3 s4 t1 t2 t3 t4).mulVec (hom s1) =
      smul3 (detTri s1 s4 s3 * detTri s1 s2 s4 * detTri s1 s2 s3 *
        detTri t4 t2 t3) (hom t1) := by
  rw [getPerspectiveTransform, mul_mulVec, adj_basis_p1, mulVec_smul, basis_e1,
    smul3_smul3]

theorem gpt_maps_p2 (s1 s2 s3 s4 t1 t2 t3 t4 : Point) :
    (getPerspectiveTransform s1 s2 s3 s4 t1 t2 t3 t4).mulVec (hom s2) =
      smul3 (detTri s4 s2 s3 * detTri s1 s2 s4 * detTri s1 s2 s3 *
        detTri t1 t4 t3) (hom t2) := by
  rw [getPerspectiveTransform, mul_mulVec, adj_basis_p2, mulVec_smul, basis_e2,
    smul3_smul3]

theorem gpt_maps_p3 (s1 s2 s3 s4 t1 t2 t3 t4 : Point) :
    (getPerspectiveTransform s1 s2 s3 s4 t1 t2 t3 t4).mulVec (hom s3) =
      smul3 (detTri s4 s2 s3 * detTri s1 s4 s3 * detTri s1 s2 s3 *
        detTri t1 t2 t4) (hom t3) := by
  rw [getPerspectiveTransform, mul_mulVec, adj_basis_p3, mulVec_smul, basis_e3,
    smul3_smul3]

theorem gpt_maps_p4 (s1 s2 s3 s4 t1 t2 t3 t4 : Point) :
    (getPerspectiveTransform s1 s2 s3 s4 t1 t2 t3 t4).mulVec (hom s4) =
      smul3 (detTri s4 s2 s3 * detTri s1 s4 s3 * detTri s1 s2 s4 *
        detTri t1 t2 t3) (hom t4) := by
  rw [getPerspectiveTransform, mul_mulVec, adj_basis_p4, mulVec_smul, basis_e4,
    smul3_smul3]

/-- Default output width of the rectified image (src/App.tsx line 221). -/
def outputWidth : ℚ := 850

/-- Default output height of the rectified image (src/App.tsx line 222). -/
def outputHeight : ℚ := 1100

/-- The perspective matrix handleExtract builds (src/App.tsx lines 224-230):
source correspondence array [tl, tr, br, bl] paired with destination
corners [(0,0), (W,0), (W,H), (0,H)]. -/
def rectifierTransform (tl tr br bl : Point) (W H : ℚ) : M3 :=
  getPerspectiveTransform tl tr br bl ⟨0, 0⟩ ⟨W, 0⟩ ⟨W, H⟩ ⟨0, H⟩

theorem detTri_d423 (W H : ℚ) :
    detTri ⟨0, H⟩ ⟨W, 0⟩ ⟨W, H⟩ = W * H := by
  simp [detTri]

theorem detTri_d143 (W H : ℚ) :
    detTri ⟨0, 0⟩ ⟨0, H⟩ ⟨W, H⟩ = -(W * H) := by
  simp [detTri]

theorem detTri_d124 (W H : ℚ) :
    detTri ⟨0, 0⟩ ⟨W, 0⟩ ⟨0, H⟩ = W * H := by
  simp [detTri]

theorem detTri_d123 (W H : ℚ) :
    detTri ⟨0, 0⟩ ⟨W, 0⟩ ⟨W, H⟩ = W * H := by
  simp [detTri]

/-- Claim C6: for every ordered quadrilateral (tl, tr, br, bl) in general
position (no three corners collinear, the condition under which a
perspective transform through the four correspondences exists at all) and
every target size W x H with W, H nonzero (in particular the default
850 x 1100), the Rectifier's perspective transform maps tl to (0,0), tr to
(W,0), br to (W,H) and bl to (0,H) exactly. -/
theorem rectifier_corners (tl tr br bl : Point) (W H : ℚ)
    (hW : W ≠ 0) (hH : H ≠ 0)
    (h1 : detTri bl tr br ≠ 0) (h2 : detTri tl bl br ≠ 0)
    (h3 : detTri tl tr bl ≠ 0) (h4 : detTri tl tr br ≠ 0) :
    applyTransform (rectifierTransform tl tr br bl W H) tl = some ⟨0, 0⟩ ∧
    applyTransform (rectifierTransform tl tr br bl W H) tr = some ⟨W, 0⟩ ∧
    applyTransform (rectifierTransform tl tr br bl W H) br = some ⟨W, H⟩ ∧
    applyTransform (rectifierTransform tl tr br bl W H) bl = some ⟨0, H⟩ := by
  have hWH : W * H ≠ 0 := mul_ne_zero hW hH
  refine ⟨?_, ?_, ?_, ?_⟩
  · refine applyTransform_of_smul _ _ _ _
      (by rw [rectifierTransform, gpt_maps_p1]) ?_
    rw [detTri_d423]
    exact mul_ne_zero (mul_ne_zero (mul_ne_zero h2 h3) h4) hWH
  · refine applyTransform_of_smul _ _ _ _
      (by rw [rectifierTransform, gpt_maps_p2]) ?_
    rw [detTri_d143]
    exact mul_ne_zero (mul_ne_zero (mul_ne_zero h1 h3) h4) (neg_ne_zero.mpr hWH)
  · refine applyTransform_of_smul _ _ _ _
      (by rw [rectifierTransform, gpt_maps_p3]) ?_
    rw [detTri_d124]
    exact mul_ne_zero (mul_ne_zero (mul_ne_zero h1 h2) h4) hWH
  · refine applyTransform_of_smul _ _ _ _
      (by rw [rectifierTransform, gpt_maps_p4]) ?_
    rw [detTri_d123]
    exact mul_ne_zero (mul_ne_zero (mul_ne_zero h1 h2) h3) hWH

/-- Witness for C6 at a concrete skewed quadrilateral and the default
850 x 1100 output size. -/
theorem rectifier_corners_witness :
    applyTransform (rectifierTransform ⟨10, 20⟩ ⟨500, 40⟩ ⟨520, 700⟩ ⟨30, 680⟩
      outputWidth outputHeight) ⟨10, 20⟩ = some ⟨0, 0⟩ ∧
    applyTransform (rectifierTransform ⟨10, 20⟩ ⟨500, 40⟩ ⟨520, 700⟩ ⟨30, 680⟩
      outputWidth outputHeight) ⟨500, 40⟩ = some ⟨outputWidth, 0⟩ ∧
    applyTransform (rectifierTransform ⟨10, 20⟩ ⟨500, 40⟩ ⟨520, 700⟩ ⟨30, 680⟩
      outputWidth outputHeight) ⟨520, 700⟩ = some ⟨outputWidth, outputHeight⟩ ∧
    applyTransform (rectifierTransform ⟨10, 20⟩ ⟨500, 40⟩ ⟨520, 700⟩ ⟨30, 680⟩
      outputWidth outputHeight) ⟨30, 680⟩ = some ⟨0, outputHeight⟩ :=
  rectifier_corners ⟨10, 20⟩ ⟨500, 40⟩ ⟨520, 700⟩ ⟨30, 680⟩ outputWidth
    outputHeight (by norm_num [outputWidth]) (by norm_num [outputHeight])
    (by norm_num [detTri]) (by norm_num [detTri]) (by norm_num [detTri])
    (by norm_num [detTri])

theorem M3_det_mul (A B : M3) : (A.mul B).det = A.det * B.det := by
  simp only [M3.mul, M3.det]
  ring

theorem M3_det_adjugate (A : M3) : A.adjugate.det = A.det ^ 2 := by
  simp only [M3.adjugate, M3.det]
  ring

theorem basisMat_det (p1 p2 p3 p4 : Point) :
    (basisMat p1 p2 p3 p4).det =
      detTri p4 p2 p3 * detTri p1 p4 p3 * detTri p1 p2 p4 * detTri p1 p2 p3 := by
  simp only [basisMat, M3.det, detTri]
  ring

/-!
## Application state and the extract handler (src/App.tsx lines 31-47 and
209-246)

The React component state that the claims mention is collected into one
record: the AppState enum of src/types.ts, the scanned image (identified by
the perspective matrix that produced it — resolution and source frame are
fixed), the published detectedCorners, the animation-frame handle, and the
availability of the capture canvas and the OpenCV global that handleExtract
checks.  handleExtract is a pure state transformer that additionally
reports whether it alerted the user and which transform (if any) it handed
to cv.warpPerspective.
-/

/-- AppState from src/types.ts. -/
inductive AppState where
  | LOADING
  | READY
  | SCANNING
  | PREVIEW
  | ERROR
deriving DecidableEq, Repr

/-- The component state handleExtract reads and writes. -/
structure ScannerState where
  appState : AppState
  scannedImage : Option M3
  detectedCorners : Option (List Point)
  animationFrameId : Option ℕ
  canvasReady : Bool
  cvReady : Bool
deriving DecidableEq, Repr

/-- Outcome of one handleExtract call: the new component state, whether the
user-visible alert fired, and the transform passed to cv.warpPerspective
(none when the warp was not attempted). -/
structure ExtractResult where
  state : ScannerState
  alerted : Bool
  warpedWith : Option M3
deriving DecidableEq, Repr

/-- handleExtract from src/App.tsx lines 209-246: if no corners are
published (or the capture canvas or the OpenCV global is missing), alert and
return with nothing changed; otherwise stop the loop, order the corners,
build the perspective matrix for the 850 x 1100 output, warp, store the
result and move to the PREVIEW state. -/
def handleExtract (s : ScannerState) : ExtractResult :=
  match s.detectedCorners with
  | none => ⟨s, true, none⟩
  | some corners =>
    if s.canvasReady = false ∨ s.cvReady = false then ⟨s, true, none⟩
    else
      let ordered := orderPoints corners
      let M := rectifierTransform (ordered.getD 0 pz) (ordered.getD 1 pz)
        (ordered.getD 2 pz) (ordered.getD 3 pz) outputWidth outputHeight
      let s2 : ScannerState :=
        { s with
          animationFrameId := none
          appState := AppState.PREVIEW
          scannedImage := some M }
      ⟨s2, false, some M⟩

/-- Claim C7: extraction requested while no document is accepted surfaces a
user-visible message, attempts no warp, produces no image, and leaves the
entire pipeline state unchanged — including the animation-frame handle, so
the scan loop keeps running. -/
theorem extract_no_document (s : ScannerState)
    (h : s.detectedCorners = none) :
    (handleExtract s).state = s ∧ (handleExtract s).alerted = true ∧
      (handleExtract s).warpedWith = none := by
  simp [handleExtract, h]

/-- Witness for C7 at a concrete running state with no published corners. -/
theorem extract_no_document_witness :
    (handleExtract ⟨AppState.READY, none, none, some 7, true, true⟩).state =
        ⟨AppState.READY, none, none, some 7, true, true⟩ ∧
      (handleExtract ⟨AppState.READY, none, none, some 7, true, true⟩).alerted = true ∧
      (handleExtract ⟨AppState.READY, none, none, some 7, true, true⟩).warpedWith = none :=
  extract_no_document ⟨AppState.READY, none, none, some 7, true, true⟩ rfl

/-!
## Degenerate quadrilaterals and the warp (claim C8)

handleExtract contains no degeneracy test: once corners are published it
always builds the perspective matrix and invokes the warp.  The upstream
filters do not exclude every singular configuration: the quadrilateral below
has three collinear corners, yet its contour area is 60000 px², its edge
cross products all share a sign (so the cross-product convexity model — and
the spec's own every-internal-angle-at-most-180-degrees definition — calls
it convex), and its aspect ratio is 37/23, inside (1.2, 1.8).  It can
therefore be published by a tick, and extraction then hands the warp a
matrix of determinant zero.
-/

/-- A quadrilateral with three collinear corners that nevertheless passes
the area, convexity and aspect-ratio filters. -/
def degenerateQuad : List Point := [⟨0, 0⟩, ⟨240, 0⟩, ⟨300, 0⟩, ⟨0, 400⟩]

/-- A component state in which degenerateQuad is the published document. -/
def degenerateState : ScannerState :=
  ⟨AppState.READY, none, some degenerateQuad, some 1, true, true⟩

/-- The transform handleExtract builds for degenerateQuad. -/
def degenerateTransform : M3 :=
  rectifierTransform ⟨0, 0⟩ ⟨240, 0⟩ ⟨300, 0⟩ ⟨0, 400⟩ outputWidth outputHeight

theorem degenerateQuad_accepted : validatorAccepts degenerateQuad := by
  have d01 : dist ⟨0, 0⟩ ⟨240, 0⟩ = ((240 : ℚ) : ℝ) :=
    dist_eval _ _ 240 (by norm_num) (by norm_num)
  have d23 : dist ⟨300, 0⟩ ⟨0, 400⟩ = ((500 : ℚ) : ℝ) :=
    dist_eval _ _ 500 (by norm_num) (by norm_num)
  have d12 : dist ⟨240, 0⟩ ⟨300, 0⟩ = ((60 : ℚ) : ℝ) :=
    dist_eval _ _ 60 (by norm_num) (by norm_num)
  have d30 : dist ⟨0, 400⟩ ⟨0, 0⟩ = ((400 : ℚ) : ℝ) :=
    dist_eval _ _ 400 (by norm_num) (by norm_num)
  have hw : avgWidth degenerateQuad = 370 := by
    simp [avgWidth, degenerateQuad, List.getD, d01, d23]
    norm_num
  have hh : avgHeight degenerateQuad = 230 := by
    simp [avgHeight, degenerateQuad, List.getD, d12, d30]
    norm_num
  have hratio : aspectRatio degenerateQuad = 37 / 23 := by
    rw [aspectRatio, hw, hh, max_eq_left (by norm_num), min_eq_right (by norm_num)]
    norm_num
  constructor <;> rw [hratio] <;> norm_num

theorem degenerateQuad_ordered :
    orderPoints degenerateQuad = degenerateQuad := by
  norm_num [orderPoints, degenerateQuad, jsSort, insertK, List.foldl, List.getD, pz]

/-- Counterexample to C8: degenerateQuad passes every upstream filter (a
tick over a mask containing it publishes it), extraction then invokes the
warp, and does so with a singular (determinant-zero) perspective transform —
so no degeneracy detection happens before the warp. -/
theorem extract_singular_warp_cex :
    tickStep polyOps [degenerateQuad] (some degenerateQuad) ∧
    (handleExtract degenerateState).warpedWith = some degenerateTransform ∧
    degenerateTransform.det = 0 := by
  refine ⟨?_, ?_, ?_⟩
  · have hsel : selectCandidate polyOps [degenerateQuad] = some degenerateQuad := by
      norm_num [selectCandidate, selectLoop, polyOps, contourArea, cyclePairs,
        List.rotate, rabs, isContourConvexB, edgeCrosses, edgeVectors,
        degenerateQuad]
    exact Or.inr ⟨degenerateQuad, hsel, Or.inl ⟨degenerateQuad_accepted, rfl⟩⟩
  · simp only [handleExtract, degenerateState, degenerateQuad_ordered]
    norm_num [degenerateTransform, degenerateQuad, List.getD, pz]
  · have hD : detTri (⟨0, 0⟩ : Point) ⟨240, 0⟩ ⟨300, 0⟩ = 0 := by
      norm_num [detTri]
    rw [degenerateTransform, rectifierTransform, getPerspectiveTransform,
      M3_det_mul, M3_det_adjugate, basisMat_det, basisMat_det, hD]
    ring

/-- Claim C8 as amended: handleExtract performs no degeneracy detection —
whenever corners are published and the canvas and OpenCV are available it
always invokes the warp, with the transform built from the ordered corners,
degenerate or not; the upstream area, convexity and aspect-ratio filters do
not exclude every singular configuration (see the counterexample), so the
warp can receive a singular transform. -/
theorem extract_no_degeneracy_guard (s : ScannerState) (corners : List Point)
    (h : s.detectedCorners = some corners) (hcanvas : s.canvasReady = true)
    (hcv : s.cvReady = true) :
    (handleExtract s).warpedWith =
      some (rectifierTransform ((orderPoints corners).getD 0 pz)
        ((orderPoints corners).getD 1 pz) ((orderPoints corners).getD 2 pz)
        ((orderPoints corners).getD 3 pz) outputWidth outputHeight) := by
  simp [handleExtract, h, hcanvas, hcv]

/-- Witness for the amended C8 at the degenerate state. -/
theorem extract_no_degeneracy_guard_witness :
    (handleExtract degenerateState).warpedWith =
      some (rectifierTransform ((orderPoints degenerateQuad).getD 0 pz)
        ((orderPoints degenerateQuad).getD 1 pz)
        ((orderPoints degenerateQuad).getD 2 pz)
        ((orderPoints degenerateQuad).getD 3 pz) outputWidth outputHeight) :=
  extract_no_degeneracy_guard degenerateState degenerateQuad rfl rfl rfl

/-!
## Detection Loop cancellation (src/App.tsx lines 42-47)

stopScanLoop cancels the scheduled animation-frame callback recorded in
animationFrameIdRef and clears the ref; if the ref is already null it does
nothing.  The host scheduler is modelled by the list of callback handles
still pending: requestAnimationFrame appends a fresh handle,
cancelAnimationFrame removes one.  The loop schedules one callback at a
time and records it in the ref, so in every reachable state the pending
handles are distinct and all equal to the recorded one.
-/

/-- The loop's scheduling state: the ref cell and the host's pending
callback handles. -/
structure LoopSched where
  animationFrameId : Option ℕ
  pending : List ℕ
deriving DecidableEq, Repr

/-- stopScanLoop from src/App.tsx lines 42-47: cancel the recorded callback
(removing it from the host's pending set) and null the ref; a no-op when the
ref is already null.  It is a total function: no exception is possible. -/
def stopScanLoop (s : LoopSched) : LoopSched :=
  match s.animationFrameId with
  | some i => ⟨none, s.pending.erase i⟩
  | none => s

/-- Reachable scheduling states of the loop: pending handles are distinct
and every pending handle is the recorded one (the loop keeps at most one
callback scheduled, always recorded in the ref). -/
def loopWellFormed (s : LoopSched) : Prop :=
  s.pending.Nodup ∧ ∀ i ∈ s.pending, s.animationFrameId = some i

/-- Claim C9: stopping the loop is idempotent and final — after stop no
callback remains pending (no further tick can fire until a new start
schedules one) and the ref is null, so a second stop in succession is a
no-op; stop is a total function, so no exception is raised. -/
theorem stopScanLoop_spec :
    (∀ s : LoopSched, stopScanLoop (stopScanLoop s) = stopScanLoop s) ∧
    (∀ s : LoopSched, loopWellFormed s →
      (stopScanLoop s).animationFrameId = none ∧
        (stopScanLoop s).pending = [] ∧
        loopWellFormed (stopScanLoop s)) := by
  constructor
  · intro s
    rcases e : s.animationFrameId with _ | i
    · simp [stopScanLoop, e]
    · simp [stopScanLoop, e]
  · intro s hwf
    rcases e : s.animationFrameId with _ | i
    · have hemp : s.pending = [] := by
        cases hp : s.pending with
        | nil => rfl
        | cons j rest =>
          have := hwf.2 j (by rw [hp]; exact List.mem_cons_self j rest)
          rw [e] at this
          cases this
      have hs : stopScanLoop s = s := by simp [stopScanLoop, e]
      rw [hs]
      exact ⟨e, hemp, hwf⟩
    · have hpend : s.pending = [] ∨ s.pending = [i] := by
        cases hp : s.pending with
        | nil => exact Or.inl rfl
        | cons j rest =>
          right
          have hji : j = i := by
            have := hwf.2 j (by rw [hp]; exact List.mem_cons_self j rest)
            rw [e] at this
            exact (Option.some.inj this).symm
          have hrest : rest = [] := by
            cases hr : rest with
            | nil => rfl
            | cons k rest2 =>
              have hki : k = i := by
                have := hwf.2 k (by
                  rw [hp, hr]
                  exact List.mem_cons_of_mem j (List.mem_cons_self k rest2))
                rw [e] at this
                exact (Option.some.inj this).symm
              have hnodup := hwf.1
              rw [hp, hr] at hnodup
              simp [List.nodup_cons] at hnodup
              exact absurd (hji.trans hki.symm) hnodup.1.1
          rw [hji, hrest]
      have hstop : stopScanLoop s = ⟨none, s.pending.erase i⟩ := by
        simp [stopScanLoop, e]
      rcases hpend with hp | hp <;>
        rw [hstop, hp] <;>
        exact ⟨rfl, by simp [List.erase], by simp [loopWellFormed, List.erase]⟩

/-- Witness for C9 at a concrete running state with one pending callback. -/
theorem stopScanLoop_spec_witness :
    (stopScanLoop ⟨some 5, [5]⟩).animationFrameId = none ∧
      (stopScanLoop ⟨some 5, [5]⟩).pending = [] ∧
      loopWellFormed (stopScanLoop ⟨some 5, [5]⟩) :=
  stopScanLoop_spec.2 ⟨some 5, [5]⟩
    ⟨by simp, by intro i hi; simp at hi; rw [hi]⟩

end DocScanner
